import Mathlib

/-!
Shallow embedding of `remove_emojis.py` (BiteTrack documentation emoji
remover).  Text is modelled as `List Char`; a Lean `Char` is a Unicode
scalar value whose code point is `Char.toNat`, matching Python's `str`
(a sequence of code points).  File paths are modelled as `String`s with
`/`-separated components, and the file system as explicit `Option`
content (`none` = unreadable) plus an explicit write-success flag, so the
per-file `try/except` of the script becomes a total function.
-/

namespace BiteTrack

/-- Membership of a code point in the character class of `EMOJI_PATTERN`
(src/remove_emojis.py lines 13-36): the union of the listed inclusive
ranges plus the two standalone code points U+200D and U+FE0F, duplicates
kept exactly as in the source. -/
def isEmojiChar (c : Char) : Bool :=
  let n := c.toNat
  (0x1F1E0 ≤ n && n ≤ 0x1F1FF) ||
  (0x1F300 ≤ n && n ≤ 0x1F5FF) ||
  (0x1F600 ≤ n && n ≤ 0x1F64F) ||
  (0x1F680 ≤ n && n ≤ 0x1F6FF) ||
  (0x1F700 ≤ n && n ≤ 0x1F77F) ||
  (0x1F780 ≤ n && n ≤ 0x1F7FF) ||
  (0x1F800 ≤ n && n ≤ 0x1F8FF) ||
  (0x1F900 ≤ n && n ≤ 0x1F9FF) ||
  (0x1FA00 ≤ n && n ≤ 0x1FA6F) ||
  (0x1FA70 ≤ n && n ≤ 0x1FAFF) ||
  (0x2702 ≤ n && n ≤ 0x27B0) ||
  (0x24C2 ≤ n && n ≤ 0x1F251) ||
  (0x1F300 ≤ n && n ≤ 0x1F5FF) ||
  (0x1F600 ≤ n && n ≤ 0x1F636) ||
  (0x1F681 ≤ n && n ≤ 0x1F6C5) ||
  (0x1F30D ≤ n && n ≤ 0x1F567) ||
  (0x2600 ≤ n && n ≤ 0x2B55) ||
  (n == 0x200D) || (n == 0xFE0F)

/-- Python's `str.isspace` character set, which is what `str.strip`,
`str.lstrip` and `str.rstrip` remove when called with no argument:
ASCII whitespace, the C1 and Unicode space separators. -/
def pyIsSpace (c : Char) : Bool :=
  let n := c.toNat
  (0x09 ≤ n && n ≤ 0x0D) || (n == 0x20) || (0x1C ≤ n && n ≤ 0x1F) ||
  (n == 0x85) || (n == 0xA0) || (n == 0x1680) ||
  (0x2000 ≤ n && n ≤ 0x200A) || (n == 0x2028) || (n == 0x2029) ||
  (n == 0x202F) || (n == 0x205F) || (n == 0x3000)

/-- `line.lstrip()`: drop leading whitespace. -/
def pyLstrip (l : List Char) : List Char := l.dropWhile pyIsSpace

/-- `line.rstrip()`: drop trailing whitespace. -/
def pyRstrip (l : List Char) : List Char :=
  (l.reverse.dropWhile pyIsSpace).reverse

/-- `text.split('\n')`: split into lines at every newline; the result is
always non-empty, and `''.split('\n') == ['']`. -/
def splitLines : List Char → List (List Char)
  | [] => [[]]
  | c :: rest =>
    if c = '\n' then [] :: splitLines rest
    else
      match splitLines rest with
      | [] => [[c]]
      | l :: ls => (c :: l) :: ls

/-- `'\n'.join(lines)`. -/
def joinLines : List (List Char) → List Char
  | [] => []
  | [l] => l
  | l :: l2 :: ls => l ++ '\n' :: joinLines (l2 :: ls)

/-- Worker for `re.sub(r' {2,}', ' ', content)`: the flag records whether
the previous emitted character position is inside a run of plain spaces,
so every maximal run of spaces is emitted as a single space (a run of one
space is unchanged, a run of two or more collapses to one — the same
output either way). -/
def collapseSpacesAux : Bool → List Char → List Char
  | _, [] => []
  | prevSpace, c :: rest =>
    if c = ' ' then
      if prevSpace then collapseSpacesAux true rest
      else ' ' :: collapseSpacesAux true rest
    else c :: collapseSpacesAux false rest

/-- `re.sub(r' {2,}', ' ', content)` from line 64 of the source. -/
def collapseSpaces (l : List Char) : List Char := collapseSpacesAux false l

/-- The per-line body of the loop in `remove_emojis_from_text`
(src/remove_emojis.py lines 55-66): rstrip the line; if it still has a
non-whitespace character, count its leading-whitespace characters, turn
them into that many plain spaces (`' ' * leading_spaces`), and collapse
multi-space runs in the rest. -/
def processLine (line : List Char) : List Char :=
  let r := pyRstrip line
  if r.any (fun c => !pyIsSpace c) then
    List.replicate (r.takeWhile pyIsSpace).length ' ' ++
      collapseSpaces (r.dropWhile pyIsSpace)
  else r

/-- `EMOJI_PATTERN.sub('', text)`: the pattern is `[class]+`, whose
maximal matches are exactly the maximal runs of class characters, so
substituting the empty string deletes precisely every class character. -/
def emojiSub (text : List Char) : List Char :=
  text.filter (fun c => !isEmojiChar c)

/-- `remove_emojis_from_text` (src/remove_emojis.py lines 39-68). -/
def remove_emojis_from_text (text : List Char) : List Char :=
  joinLines ((splitLines (emojiSub text)).map processLine)

/-- Worker for `len(EMOJI_PATTERN.findall(text))`: counts the maximal
runs of class characters, carrying whether the previous character was in
the class. -/
def countRunsAux : Bool → List Char → Nat
  | _, [] => 0
  | prevIn, c :: rest =>
    let cur := isEmojiChar c
    (if cur && !prevIn then 1 else 0) + countRunsAux cur rest

/-- `len(EMOJI_PATTERN.findall(text))` (src/remove_emojis.py lines
87-88): the number of maximal contiguous emoji runs. -/
def countMatches (text : List Char) : Nat := countRunsAux false text

/-- Worker for "no two adjacent plain spaces". -/
def noDoubleSpaceAux : Bool → List Char → Bool
  | _, [] => true
  | prevSpace, c :: rest =>
    if c = ' ' then
      if prevSpace then false else noDoubleSpaceAux true rest
    else noDoubleSpaceAux false rest

/-- A list of characters with no run of two or more plain spaces, i.e.
nothing for `re.sub(r' {2,}', ' ', ·)` to collapse. -/
def noDoubleSpace (l : List Char) : Bool := noDoubleSpaceAux false l

/-! ### Lemmas about line splitting and joining -/

theorem splitLines_ne_nil (s : List Char) : splitLines s ≠ [] := by
  induction s with
  | nil => simp [splitLines]
  | cons c rest ih =>
    simp only [splitLines]
    split
    · simp
    · cases h : splitLines rest with
      | nil => simp
      | cons l ls => simp

theorem newline_not_mem_splitLines (s : List Char) :
    ∀ L ∈ splitLines s, '\n' ∉ L := by
  induction s with
  | nil =>
    intro L hL
    simp [splitLines] at hL
    simp [hL]
  | cons c rest ih =>
    intro L hL
    simp only [splitLines] at hL
    by_cases hc : c = '\n'
    · simp only [if_pos hc] at hL
      rcases List.mem_cons.mp hL with h | h
      · simp [h]
      · exact ih L h
    · simp only [if_neg hc] at hL
      cases h : splitLines rest with
      | nil => exact absurd h (splitLines_ne_nil rest)
      | cons l ls =>
        rw [h] at hL
        rcases List.mem_cons.mp hL with h1 | h1
        · subst h1
          intro hmem
          rcases List.mem_cons.mp hmem with h2 | h2
          · exact hc h2.symm
          · exact ih l (h ▸ List.mem_cons_self l ls) h2
        · exact ih L (h ▸ List.mem_cons_of_mem l h1)

theorem joinLines_splitLines (s : List Char) : joinLines (splitLines s) = s := by
  induction s with
  | nil => rfl
  | cons c rest ih =>
    by_cases hc : c = '\n'
    · subst hc
      simp only [splitLines, if_pos rfl]
      cases h : splitLines rest with
      | nil => exact absurd h (splitLines_ne_nil rest)
      | cons l ls =>
        rw [h] at ih
        simp [joinLines, ih]
    · simp only [splitLines, if_neg hc]
      cases h : splitLines rest with
      | nil => exact absurd h (splitLines_ne_nil rest)
      | cons l ls =>
        rw [h] at ih
        cases ls with
        | nil => simpa [joinLines] using congrArg (c :: ·) ih
        | cons l2 ls2 => simpa [joinLines] using congrArg (c :: ·) ih

theorem splitLines_append_newline (l r : List Char) (h : '\n' ∉ l) :
    splitLines (l ++ '\n' :: r) = l :: splitLines r := by
  induction l with
  | nil => simp [splitLines]
  | cons c t ih =>
    have hc : c ≠ '\n' := fun hh => h (hh ▸ List.mem_cons_self c t)
    have ht : '\n' ∉ t := fun hh => h (List.mem_cons_of_mem c hh)
    have h2 := ih ht
    simp only [List.cons_append, splitLines, if_neg hc, List.append_eq, h2]

theorem splitLines_eq_self (l : List Char) (h : '\n' ∉ l) :
    splitLines l = [l] := by
  induction l with
  | nil => rfl
  | cons c t ih =>
    have hc : c ≠ '\n' := fun hh => h (hh ▸ List.mem_cons_self c t)
    have ht : '\n' ∉ t := fun hh => h (List.mem_cons_of_mem c hh)
    simp only [splitLines, if_neg hc, ih ht]

theorem splitLines_joinLines (ls : List (List Char)) (h1 : ls ≠ [])
    (h2 : ∀ l ∈ ls, '\n' ∉ l) : splitLines (joinLines ls) = ls := by
  induction ls with
  | nil => exact absurd rfl h1
  | cons l ls ih =>
    cases ls with
    | nil =>
      simp only [joinLines]
      exact splitLines_eq_self l (h2 l (List.mem_cons_self l []))
    | cons l2 ls2 =>
      have hl : '\n' ∉ l := h2 l (List.mem_cons_self l _)
      have hrest : ∀ x ∈ l2 :: ls2, '\n' ∉ x :=
        fun x hx => h2 x (List.mem_cons_of_mem l hx)
      simp only [joinLines]
      rw [splitLines_append_newline _ _ hl, ih (by simp) hrest]

theorem mem_joinLines (c : Char) (ls : List (List Char)) (h : c ∈ joinLines ls) :
    (∃ l ∈ ls, c ∈ l) ∨ c = '\n' := by
  induction ls with
  | nil => simp [joinLines] at h
  | cons l ls ih =>
    cases ls with
    | nil =>
      simp only [joinLines] at h
      exact Or.inl ⟨l, List.mem_cons_self l [], h⟩
    | cons l2 ls2 =>
      simp only [joinLines] at h
      rcases List.mem_append.mp h with h1 | h1
      · exact Or.inl ⟨l, List.mem_cons_self l _, h1⟩
      · rcases List.mem_cons.mp h1 with h2 | h2
        · exact Or.inr h2
        · rcases ih h2 with ⟨x, hx, hcx⟩ | h3
          · exact Or.inl ⟨x, List.mem_cons_of_mem l hx, hcx⟩
          · exact Or.inr h3

theorem joinLines_map_length_le (f : List Char → List Char)
    (hf : ∀ l, (f l).length ≤ l.length) (ls : List (List Char)) :
    (joinLines (ls.map f)).length ≤ (joinLines ls).length := by
  induction ls with
  | nil => simp [joinLines]
  | cons l ls ih =>
    cases ls with
    | nil => simpa [joinLines] using hf l
    | cons l2 ls2 =>
      have h1 := hf l
      have h2 := ih
      simp only [List.map_cons] at h2 ⊢
      simp only [joinLines, List.length_append, List.length_cons]
      omega

theorem splitLines_filter (p : Char → Bool) (hp : p '\n' = true) (s : List Char) :
    splitLines (s.filter p) = (splitLines s).map (List.filter p) := by
  induction s with
  | nil => simp [splitLines]
  | cons c rest ih =>
    by_cases hc : c = '\n'
    · subst hc
      simp only [List.filter_cons, hp, if_pos rfl, splitLines]
      simp only [splitLines, if_pos rfl] at *
      simp [ih]
    · cases h : splitLines rest with
      | nil => exact absurd h (splitLines_ne_nil rest)
      | cons l ls =>
        rw [h] at ih
        cases hpc : p c with
        | true =>
          have hfil : (c :: rest).filter p = c :: rest.filter p := by
            simp [List.filter_cons, hpc]
          rw [hfil]
          simp only [splitLines, if_neg hc, h, ih, List.map_cons]
          cases hsf : splitLines (rest.filter p) with
          | nil => exact absurd hsf (splitLines_ne_nil _)
          | cons l' ls' =>
            rw [hsf] at ih
            cases ih
            simp [List.filter_cons, hpc]
        | false =>
          have hfil : (c :: rest).filter p = rest.filter p := by
            simp [List.filter_cons, hpc]
          rw [hfil, ih]
          simp only [splitLines, if_neg hc, h, List.map_cons]
          simp [List.filter_cons, hpc]

/-! ### Lemmas about space collapsing -/

theorem collapseSpacesAux_cons_space_true (l : List Char) :
    collapseSpacesAux true (' ' :: l) = collapseSpacesAux true l := by
  simp [collapseSpacesAux]

theorem collapseSpacesAux_cons_space_false (l : List Char) :
    collapseSpacesAux false (' ' :: l) = ' ' :: collapseSpacesAux true l := by
  simp [collapseSpacesAux]

theorem collapseSpacesAux_cons_of_ne (b : Bool) (c : Char) (l : List Char)
    (h : c ≠ ' ') :
    collapseSpacesAux b (c :: l) = c :: collapseSpacesAux false l := by
  simp [collapseSpacesAux, h]

theorem noDoubleSpaceAux_cons_space_true (l : List Char) :
    noDoubleSpaceAux true (' ' :: l) = false := by
  simp [noDoubleSpaceAux]

theorem noDoubleSpaceAux_cons_space_false (l : List Char) :
    noDoubleSpaceAux false (' ' :: l) = noDoubleSpaceAux true l := by
  simp [noDoubleSpaceAux]

theorem noDoubleSpaceAux_cons_of_ne (b : Bool) (c : Char) (l : List Char)
    (h : c ≠ ' ') :
    noDoubleSpaceAux b (c :: l) = noDoubleSpaceAux false l := by
  simp [noDoubleSpaceAux, h]

theorem collapseSpacesAux_sublist (b : Bool) (l : List Char) :
    List.Sublist (collapseSpacesAux b l) l := by
  induction l generalizing b with
  | nil => simp [collapseSpacesAux]
  | cons c rest ih =>
    by_cases hc : c = ' '
    · subst hc
      cases b with
      | true =>
        rw [collapseSpacesAux_cons_space_true]
        exact (ih true).cons ' '
      | false =>
        rw [collapseSpacesAux_cons_space_false]
        exact (ih true).cons₂ ' '
    · rw [collapseSpacesAux_cons_of_ne b c rest hc]
      exact (ih false).cons₂ c

theorem collapseSpacesAux_getLast? (l : List Char) (c : Char)
    (h1 : l.getLast? = some c) (h2 : c ≠ ' ') :
    ∀ b, (collapseSpacesAux b l).getLast? = some c := by
  induction l with
  | nil => simp at h1
  | cons a t ih =>
    intro b
    cases t with
    | nil =>
      have ha : a = c := by simpa using h1
      subst ha
      rw [collapseSpacesAux_cons_of_ne b a [] h2]
      rfl
    | cons x xs =>
      rw [List.getLast?_cons_cons] at h1
      have ht := ih h1
      by_cases ha : a = ' '
      · subst ha
        cases b with
        | true =>
          rw [collapseSpacesAux_cons_space_true]
          exact ht true
        | false =>
          rw [collapseSpacesAux_cons_space_false]
          cases hm : collapseSpacesAux true (x :: xs) with
          | nil =>
            exfalso
            have hx := ht true
            rw [hm] at hx
            simp at hx
          | cons y ys =>
            have hx := ht true
            rw [hm] at hx
            rw [List.getLast?_cons_cons]
            exact hx
      · rw [collapseSpacesAux_cons_of_ne b a (x :: xs) ha]
        cases hm : collapseSpacesAux false (x :: xs) with
        | nil =>
          exfalso
          have hx := ht false
          rw [hm] at hx
          simp at hx
        | cons y ys =>
          have hx := ht false
          rw [hm] at hx
          rw [List.getLast?_cons_cons]
          exact hx

theorem noDoubleSpaceAux_collapseSpacesAux (l : List Char) :
    ∀ b, noDoubleSpaceAux b (collapseSpacesAux b l) = true := by
  induction l with
  | nil => intro b; simp [collapseSpacesAux, noDoubleSpaceAux]
  | cons c rest ih =>
    intro b
    by_cases hc : c = ' '
    · subst hc
      cases b with
      | true =>
        rw [collapseSpacesAux_cons_space_true]
        exact ih true
      | false =>
        rw [collapseSpacesAux_cons_space_false, noDoubleSpaceAux_cons_space_false]
        exact ih true
    · rw [collapseSpacesAux_cons_of_ne b c rest hc,
        noDoubleSpaceAux_cons_of_ne b c _ hc]
      exact ih false

theorem collapseSpacesAux_of_noDouble (l : List Char) :
    ∀ b, noDoubleSpaceAux b l = true → collapseSpacesAux b l = l := by
  induction l with
  | nil => intro b _; rfl
  | cons c rest ih =>
    intro b hb
    by_cases hc : c = ' '
    · subst hc
      cases b with
      | true => rw [noDoubleSpaceAux_cons_space_true] at hb; exact absurd hb (by simp)
      | false =>
        rw [noDoubleSpaceAux_cons_space_false] at hb
        rw [collapseSpacesAux_cons_space_false, ih true hb]
    · rw [noDoubleSpaceAux_cons_of_ne b c rest hc] at hb
      rw [collapseSpacesAux_cons_of_ne b c rest hc, ih false hb]

theorem collapseSpacesAux_filter (q : Char → Bool) (hq : q ' ' = false)
    (l : List Char) :
    ∀ b, (collapseSpacesAux b l).filter q = l.filter q := by
  induction l with
  | nil => intro b; rfl
  | cons c rest ih =>
    intro b
    by_cases hc : c = ' '
    · subst hc
      cases b with
      | true =>
        rw [collapseSpacesAux_cons_space_true, ih true, List.filter_cons,
          if_neg (by simp [hq])]
      | false =>
        rw [collapseSpacesAux_cons_space_false, List.filter_cons, List.filter_cons,
          if_neg (by simp [hq]), if_neg (by simp [hq]), ih true]
    · rw [collapseSpacesAux_cons_of_ne b c rest hc]
      simp only [List.filter_cons]
      rw [ih false]

/-! ### Lemmas about Python strip operations -/

theorem head?_dropWhile_not (p : Char → Bool) (x : List Char) (c : Char)
    (h : (x.dropWhile p).head? = some c) : p c = false := by
  induction x with
  | nil => simp [List.dropWhile] at h
  | cons a t ih =>
    rw [List.dropWhile_cons] at h
    by_cases hp : p a = true
    · rw [if_pos hp] at h; exact ih h
    · rw [if_neg hp] at h
      simp only [List.head?_cons, Option.some_inj] at h
      subst h
      simpa using hp

theorem pyRstrip_sublist (l : List Char) : List.Sublist (pyRstrip l) l := by
  have h1 : List.Sublist (l.reverse.dropWhile pyIsSpace) l.reverse :=
    List.dropWhile_sublist _
  have h2 := h1.reverse
  rwa [List.reverse_reverse] at h2

theorem pyRstrip_getLast? (l : List Char) (c : Char)
    (h : (pyRstrip l).getLast? = some c) : pyIsSpace c = false := by
  unfold pyRstrip at h
  rw [List.getLast?_reverse] at h
  exact head?_dropWhile_not pyIsSpace l.reverse c h

theorem pyRstrip_eq_nil_of_no_nonspace (l : List Char)
    (h : (pyRstrip l).any (fun c => !pyIsSpace c) = false) : pyRstrip l = [] := by
  cases hr : pyRstrip l with
  | nil => rfl
  | cons x xs =>
    exfalso
    have hlast : (pyRstrip l).getLast? = some ((x :: xs).getLast (by simp)) := by
      rw [hr]
      exact List.getLast?_eq_getLast (x :: xs) (by simp)
    have hns := pyRstrip_getLast? l _ hlast
    have hmem : (x :: xs).getLast (by simp) ∈ pyRstrip l := by
      rw [hr]; exact List.getLast_mem _
    rw [List.any_eq_false] at h
    have := h _ hmem
    simp [hns] at this

theorem pyRstrip_of_getLast (l : List Char) (c : Char)
    (h1 : l.getLast? = some c) (h2 : pyIsSpace c = false) : pyRstrip l = l := by
  unfold pyRstrip
  have hh : l.reverse.head? = some c := by rw [List.head?_reverse]; exact h1
  cases hr : l.reverse with
  | nil => simp [hr] at hh
  | cons a t =>
    rw [hr] at hh
    simp only [List.head?_cons, Option.some_inj] at hh
    subst hh
    rw [List.dropWhile_cons, if_neg (by simp [h2])]
    rw [← hr, List.reverse_reverse]

theorem filter_dropWhile (p q : Char → Bool)
    (hpq : ∀ c, p c = true → q c = false) (x : List Char) :
    (x.dropWhile p).filter q = x.filter q := by
  induction x with
  | nil => rfl
  | cons a t ih =>
    rw [List.dropWhile_cons]
    by_cases hp : p a = true
    · rw [if_pos hp, ih, List.filter_cons, if_neg (by simp [hpq a hp])]
    · rw [if_neg hp]

theorem filter_pyRstrip (q : Char → Bool)
    (hq : ∀ c, pyIsSpace c = true → q c = false) (l : List Char) :
    (pyRstrip l).filter q = l.filter q := by
  unfold pyRstrip
  rw [List.filter_reverse, filter_dropWhile pyIsSpace q hq, List.filter_reverse,
    List.reverse_reverse]

/-! ### Lemmas about the per-line transform -/

theorem pyIsSpace_space : pyIsSpace ' ' = true := by decide

theorem ne_space_of_not_space {c : Char} (h : pyIsSpace c = false) : c ≠ ' ' := by
  intro e
  rw [e] at h
  exact absurd h (by decide)

theorem takeWhile_append_of_all (p : Char → Bool) (xs ys : List Char)
    (h : ∀ c ∈ xs, p c = true) :
    (xs ++ ys).takeWhile p = xs ++ ys.takeWhile p := by
  induction xs with
  | nil => rfl
  | cons a t ih =>
    have ha := h a (List.mem_cons_self a t)
    simp only [List.cons_append, List.takeWhile_cons, ha, if_pos]
    rw [ih (fun c hc => h c (List.mem_cons_of_mem a hc))]

theorem dropWhile_append_of_all (p : Char → Bool) (xs ys : List Char)
    (h : ∀ c ∈ xs, p c = true) :
    (xs ++ ys).dropWhile p = ys.dropWhile p := by
  induction xs with
  | nil => rfl
  | cons a t ih =>
    have ha := h a (List.mem_cons_self a t)
    simp only [List.cons_append, List.dropWhile_cons, ha, if_pos]
    exact ih (fun c hc => h c (List.mem_cons_of_mem a hc))

theorem dropWhile_ne_nil_of_any (p : Char → Bool) (l : List Char)
    (h : l.any (fun c => !p c) = true) : l.dropWhile p ≠ [] := by
  induction l with
  | nil => simp at h
  | cons a t ih =>
    rw [List.dropWhile_cons]
    by_cases hp : p a = true
    · rw [if_pos hp]
      apply ih
      simp only [List.any_cons, hp] at h
      simpa using h
    · rw [if_neg hp]
      simp

theorem noDoubleSpace_collapseSpaces (l : List Char) :
    noDoubleSpace (collapseSpaces l) = true :=
  noDoubleSpaceAux_collapseSpacesAux l false

theorem collapseSpaces_of_noDouble (l : List Char) (h : noDoubleSpace l = true) :
    collapseSpaces l = l :=
  collapseSpacesAux_of_noDouble l false h

theorem collapseSpaces_idem (l : List Char) :
    collapseSpaces (collapseSpaces l) = collapseSpaces l :=
  collapseSpaces_of_noDouble _ (noDoubleSpace_collapseSpaces l)

theorem processLine_nil : processLine [] = [] := by decide

theorem processLine_blank (L : List Char)
    (h : (pyRstrip L).any (fun c => !pyIsSpace c) = false) : processLine L = [] := by
  unfold processLine
  rw [if_neg (by simp [h]), pyRstrip_eq_nil_of_no_nonspace L h]

theorem processLine_nonblank (L : List Char)
    (h : (pyRstrip L).any (fun c => !pyIsSpace c) = true) :
    processLine L = List.replicate ((pyRstrip L).takeWhile pyIsSpace).length ' ' ++
      collapseSpaces ((pyRstrip L).dropWhile pyIsSpace) := by
  unfold processLine
  rw [if_pos h]

theorem content_head (L : List Char)
    (h : (pyRstrip L).any (fun c => !pyIsSpace c) = true) :
    ∃ c t, (pyRstrip L).dropWhile pyIsSpace = c :: t ∧ pyIsSpace c = false := by
  cases hd : (pyRstrip L).dropWhile pyIsSpace with
  | nil => exact absurd hd (dropWhile_ne_nil_of_any pyIsSpace _ h)
  | cons c t =>
    refine ⟨c, t, rfl, ?_⟩
    exact head?_dropWhile_not pyIsSpace (pyRstrip L) c (by rw [hd]; rfl)

theorem content_getLast? (L : List Char)
    (h : (pyRstrip L).any (fun c => !pyIsSpace c) = true) :
    ∃ c, ((pyRstrip L).dropWhile pyIsSpace).getLast? = some c ∧ pyIsSpace c = false := by
  have hne : (pyRstrip L).dropWhile pyIsSpace ≠ [] :=
    dropWhile_ne_nil_of_any pyIsSpace _ h
  have hsplit : (pyRstrip L).takeWhile pyIsSpace ++ (pyRstrip L).dropWhile pyIsSpace =
      pyRstrip L := List.takeWhile_append_dropWhile pyIsSpace (pyRstrip L)
  have hlast : (pyRstrip L).getLast? = ((pyRstrip L).dropWhile pyIsSpace).getLast? := by
    conv_lhs => rw [← hsplit]
    exact List.getLast?_append_of_ne_nil _ hne
  cases hg : ((pyRstrip L).dropWhile pyIsSpace).getLast? with
  | none => exact absurd (List.getLast?_eq_none_iff.mp hg) hne
  | some c =>
    refine ⟨c, rfl, ?_⟩
    exact pyRstrip_getLast? L c (by rw [hlast, hg])

theorem processLine_takeWhile (L : List Char)
    (h : (pyRstrip L).any (fun c => !pyIsSpace c) = true) :
    (processLine L).takeWhile pyIsSpace =
      List.replicate ((pyRstrip L).takeWhile pyIsSpace).length ' ' := by
  obtain ⟨c, t, hct, hc⟩ := content_head L h
  rw [processLine_nonblank L h,
    takeWhile_append_of_all pyIsSpace _ _
      (fun x hx => by
        have := List.eq_of_mem_replicate hx
        rw [this]; exact pyIsSpace_space)]
  unfold collapseSpaces
  rw [hct, collapseSpacesAux_cons_of_ne false c t (ne_space_of_not_space hc),
    List.takeWhile_cons, hc]
  simp

theorem processLine_dropWhile (L : List Char)
    (h : (pyRstrip L).any (fun c => !pyIsSpace c) = true) :
    (processLine L).dropWhile pyIsSpace =
      collapseSpaces ((pyRstrip L).dropWhile pyIsSpace) := by
  obtain ⟨c, t, hct, hc⟩ := content_head L h
  rw [processLine_nonblank L h,
    dropWhile_append_of_all pyIsSpace _ _
      (fun x hx => by
        have := List.eq_of_mem_replicate hx
        rw [this]; exact pyIsSpace_space)]
  unfold collapseSpaces
  rw [hct, collapseSpacesAux_cons_of_ne false c t (ne_space_of_not_space hc),
    List.dropWhile_cons, hc]
  simp

theorem processLine_getLast? (L : List Char)
    (h : (pyRstrip L).any (fun c => !pyIsSpace c) = true) :
    ∃ c, (processLine L).getLast? = some c ∧ pyIsSpace c = false := by
  obtain ⟨c, hg, hc⟩ := content_getLast? L h
  refine ⟨c, ?_, hc⟩
  rw [processLine_nonblank L h]
  have hcol : (collapseSpaces ((pyRstrip L).dropWhile pyIsSpace)).getLast? = some c :=
    collapseSpacesAux_getLast? _ c hg (ne_space_of_not_space hc) false
  have hne : collapseSpaces ((pyRstrip L).dropWhile pyIsSpace) ≠ [] := by
    intro hnil
    rw [hnil] at hcol
    simp at hcol
  rw [List.getLast?_append_of_ne_nil _ hne]
  exact hcol

theorem processLine_idem (L : List Char) :
    processLine (processLine L) = processLine L := by
  by_cases h : (pyRstrip L).any (fun c => !pyIsSpace c) = true
  · obtain ⟨cl, hg, hcl⟩ := processLine_getLast? L h
    have hrs : pyRstrip (processLine L) = processLine L :=
      pyRstrip_of_getLast _ cl hg hcl
    have hany : (pyRstrip (processLine L)).any (fun c => !pyIsSpace c) = true := by
      rw [hrs]
      rw [List.any_eq_true]
      obtain ⟨ys, hys⟩ := List.getLast?_eq_some_iff.mp hg
      exact ⟨cl, by rw [hys]; exact List.mem_append_right ys (by simp), by simp [hcl]⟩
    rw [processLine_nonblank _ hany, hrs, processLine_takeWhile L h,
      processLine_dropWhile L h, List.length_replicate, collapseSpaces_idem,
      processLine_nonblank L h]
  · rw [processLine_blank L (by simpa using h), processLine_nil]

theorem processLine_filter_nonspace (L : List Char) :
    (processLine L).filter (fun c => !pyIsSpace c) =
      L.filter (fun c => !pyIsSpace c) := by
  have hq : ∀ c, pyIsSpace c = true → (!pyIsSpace c) = false := by
    intro c hc; rw [hc]; rfl
  by_cases h : (pyRstrip L).any (fun c => !pyIsSpace c) = true
  · rw [processLine_nonblank L h, List.filter_append]
    have h1 : (List.replicate ((pyRstrip L).takeWhile pyIsSpace).length ' ').filter
        (fun c => !pyIsSpace c) = [] := by
      rw [List.filter_eq_nil_iff]
      intro a ha
      rw [List.eq_of_mem_replicate ha]
      simp [pyIsSpace_space]
    rw [h1, List.nil_append]
    unfold collapseSpaces
    rw [collapseSpacesAux_filter _ (by simp [pyIsSpace_space]) _ false,
      filter_dropWhile pyIsSpace _ hq, filter_pyRstrip _ hq]
  · rw [processLine_blank L (by simpa using h)]
    have h2 : L.filter (fun c => !pyIsSpace c) = [] := by
      rw [← filter_pyRstrip _ hq, pyRstrip_eq_nil_of_no_nonspace L (by simpa using h)]
      rfl
    rw [h2]
    rfl

theorem processLine_subset (L : List Char) (c : Char) (h : c ∈ processLine L) :
    c ∈ L ∨ c = ' ' := by
  by_cases hb : (pyRstrip L).any (fun x => !pyIsSpace x) = true
  · rw [processLine_nonblank L hb] at h
    rcases List.mem_append.mp h with h1 | h1
    · exact Or.inr (List.eq_of_mem_replicate h1)
    · left
      have h2 : c ∈ (pyRstrip L).dropWhile pyIsSpace :=
        (collapseSpacesAux_sublist false _).subset h1
      have h3 : c ∈ pyRstrip L := (List.dropWhile_sublist _).subset h2
      exact (pyRstrip_sublist L).subset h3
  · rw [processLine_blank L (by simpa using hb)] at h
    simp at h

theorem processLine_length_le (L : List Char) :
    (processLine L).length ≤ L.length := by
  by_cases hb : (pyRstrip L).any (fun x => !pyIsSpace x) = true
  · rw [processLine_nonblank L hb, List.length_append, List.length_replicate]
    have h1 : (collapseSpaces ((pyRstrip L).dropWhile pyIsSpace)).length ≤
        ((pyRstrip L).dropWhile pyIsSpace).length :=
      (collapseSpacesAux_sublist false _).length_le
    have h2 : ((pyRstrip L).takeWhile pyIsSpace).length +
        ((pyRstrip L).dropWhile pyIsSpace).length = (pyRstrip L).length := by
      rw [← List.length_append, List.takeWhile_append_dropWhile]
    have h3 : (pyRstrip L).length ≤ L.length := (pyRstrip_sublist L).length_le
    omega
  · rw [processLine_blank L (by simpa using hb)]
    simp

theorem processLine_no_newline (L : List Char) (h : '\n' ∉ L) :
    '\n' ∉ processLine L := by
  intro hmem
  rcases processLine_subset L '\n' hmem with h1 | h1
  · exact h h1
  · exact absurd h1 (by decide)

/-! ### Lemmas about emoji classification and run counting -/

theorem space_not_emoji : isEmojiChar ' ' = false := by decide

theorem newline_not_emoji : isEmojiChar '\n' = false := by decide

theorem countRunsAux_eq_zero (l : List Char)
    (h : ∀ c ∈ l, isEmojiChar c = false) : ∀ b, countRunsAux b l = 0 := by
  induction l with
  | nil => intro b; rfl
  | cons c rest ih =>
    intro b
    have hc := h c (List.mem_cons_self c rest)
    simp only [countRunsAux, hc]
    simpa using ih (fun x hx => h x (List.mem_cons_of_mem c hx)) false

theorem exists_emoji_of_countRunsAux_pos (l : List Char) :
    ∀ b, 0 < countRunsAux b l → ∃ c ∈ l, isEmojiChar c = true := by
  induction l with
  | nil => intro b h; simp [countRunsAux] at h
  | cons c rest ih =>
    intro b h
    by_cases hc : isEmojiChar c = true
    · exact ⟨c, List.mem_cons_self c rest, hc⟩
    · rw [Bool.not_eq_true] at hc
      simp [countRunsAux, hc] at h
      obtain ⟨x, hx, hex⟩ := ih false (by simpa using h)
      exact ⟨x, List.mem_cons_of_mem c hx, hex⟩

theorem countMatches_eq_zero (l : List Char)
    (h : ∀ c ∈ l, isEmojiChar c = false) : countMatches l = 0 :=
  countRunsAux_eq_zero l h false

theorem mem_emojiSub_not_emoji (T : List Char) (c : Char) (h : c ∈ emojiSub T) :
    isEmojiChar c = false := by
  have := (List.mem_filter.mp h).2
  simpa using this

/-! ### Structure of `remove_emojis_from_text` -/

theorem mem_joinLines_of_mem (c : Char) (l : List Char) (ls : List (List Char))
    (h1 : l ∈ ls) (h2 : c ∈ l) : c ∈ joinLines ls := by
  induction ls with
  | nil => simp at h1
  | cons x xs ih =>
    cases xs with
    | nil =>
      simp only [List.mem_singleton] at h1
      subst h1
      simpa [joinLines] using h2
    | cons y ys =>
      simp only [joinLines]
      rcases List.mem_cons.mp h1 with h3 | h3
      · subst h3
        exact List.mem_append_left _ h2
      · exact List.mem_append_right _ (List.mem_cons_of_mem _ (ih h3))

theorem mem_of_mem_splitLines (c : Char) (l s : List Char)
    (h1 : l ∈ splitLines s) (h2 : c ∈ l) : c ∈ s := by
  have := mem_joinLines_of_mem c l (splitLines s) h1 h2
  rwa [joinLines_splitLines s] at this

theorem splitLines_remove (T : List Char) :
    splitLines (remove_emojis_from_text T) =
      (splitLines (emojiSub T)).map processLine := by
  unfold remove_emojis_from_text
  apply splitLines_joinLines
  · simp [splitLines_ne_nil]
  · intro l hl
    obtain ⟨l0, hl0, rfl⟩ := List.mem_map.mp hl
    exact processLine_no_newline l0 (newline_not_mem_splitLines _ l0 hl0)

theorem remove_no_emoji (T : List Char) :
    ∀ c ∈ remove_emojis_from_text T, isEmojiChar c = false := by
  intro c hc
  unfold remove_emojis_from_text at hc
  rcases mem_joinLines c _ hc with ⟨l, hl, hcl⟩ | h1
  · obtain ⟨l0, hl0, rfl⟩ := List.mem_map.mp hl
    rcases processLine_subset l0 c hcl with h2 | h2
    · exact mem_emojiSub_not_emoji T c (mem_of_mem_splitLines c l0 _ hl0 h2)
    · rw [h2]; exact space_not_emoji
  · rw [h1]; exact newline_not_emoji

theorem countMatches_remove (T : List Char) :
    countMatches (remove_emojis_from_text T) = 0 :=
  countMatches_eq_zero _ (remove_no_emoji T)

theorem emojiSub_remove (T : List Char) :
    emojiSub (remove_emojis_from_text T) = remove_emojis_from_text T := by
  unfold emojiSub
  rw [List.filter_eq_self]
  intro a ha
  simp [remove_no_emoji T a ha]

theorem remove_idem (T : List Char) :
    remove_emojis_from_text (remove_emojis_from_text T) =
      remove_emojis_from_text T := by
  conv_lhs => rw [remove_emojis_from_text]
  rw [emojiSub_remove, splitLines_remove, List.map_map]
  have hmap : (splitLines (emojiSub T)).map (processLine ∘ processLine) =
      (splitLines (emojiSub T)).map processLine :=
    List.map_congr_left (fun l _ => processLine_idem l)
  rw [hmap, ← remove_emojis_from_text]

theorem remove_length_le (T : List Char) :
    (remove_emojis_from_text T).length ≤ T.length := by
  unfold remove_emojis_from_text
  have h1 := joinLines_map_length_le processLine processLine_length_le
    (splitLines (emojiSub T))
  rw [joinLines_splitLines (emojiSub T)] at h1
  exact h1.trans (List.length_filter_le _ T)

theorem remove_length_lt (T : List Char) (h : 0 < countMatches T) :
    (remove_emojis_from_text T).length < T.length := by
  obtain ⟨e, he, hee⟩ := exists_emoji_of_countRunsAux_pos T false h
  have h2 : (emojiSub T).length < T.length := by
    unfold emojiSub
    rw [List.length_filter_lt_length_iff_exists]
    exact ⟨e, he, by simp [hee]⟩
  unfold remove_emojis_from_text
  have h1 := joinLines_map_length_le processLine processLine_length_le
    (splitLines (emojiSub T))
  rw [joinLines_splitLines (emojiSub T)] at h1
  exact lt_of_le_of_lt h1 h2

theorem remove_ne_of_count_pos (T : List Char) (h : 0 < countMatches T) :
    remove_emojis_from_text T ≠ T := by
  intro he
  have := remove_length_lt T h
  rw [he] at this
  exact lt_irrefl _ this

/-! ### File processing model -/

/-- What `process_markdown_file` did to the file on disk: left it alone,
overwrote it with the given content, or attempted a write that raised
(caught by the `except`, leaving the on-disk state unspecified). -/
inductive WriteEffect where
  | untouched : WriteEffect
  | written : List Char → WriteEffect
  | writeFailed : WriteEffect
deriving DecidableEq

/-- The observable outcome of `process_markdown_file` for one file: the
returned `(changed, emoji_count)` tuple, the effect on the disk, and
whether an ERROR line was printed to stderr by the `except` handler. -/
structure FileResult where
  changed : Bool
  emoji_count : Nat
  effect : WriteEffect
  error_reported : Bool
deriving DecidableEq

/-- `process_markdown_file` (src/remove_emojis.py lines 71-108).
`disk` is the readable content of the file (`none` models any read
failure: permissions, encoding, I/O — the `open`/`read` raising);
`write_ok` models whether the write inside `if not dry_run` would
succeed.  Matches the source's return paths in order: read failure hits
the `except` (returns `(False, 0)` after printing to stderr); zero count
returns `(False, 0)`; the defensive `original == cleaned` check returns
`(False, 0)`; otherwise the file is written unless `dry_run`, and a
failing write also lands in the `except` with `(False, 0)`. -/
def process_markdown_file (disk : Option (List Char)) (write_ok : Bool)
    (dry_run : Bool) : FileResult :=
  match disk with
  | none => ⟨false, 0, WriteEffect.untouched, true⟩
  | some original =>
    let emoji_count := countMatches original
    if emoji_count = 0 then ⟨false, 0, WriteEffect.untouched, false⟩
    else
      let cleaned := remove_emojis_from_text original
      if original = cleaned then ⟨false, 0, WriteEffect.untouched, false⟩
      else if dry_run then ⟨true, emoji_count, WriteEffect.untouched, false⟩
      else if write_ok then ⟨true, emoji_count, WriteEffect.written cleaned, false⟩
      else ⟨false, 0, WriteEffect.writeFailed, true⟩

/-- The aggregate counters printed in `main`'s SUMMARY block. -/
structure RunSummary where
  files_processed : Nat
  files_changed : Nat
  total_emojis : Nat
deriving DecidableEq

/-- The per-file results of `main`'s loop (src/remove_emojis.py lines
162-173): every discovered file is processed, in order.  Each file is a
pair of its readable content and its write-success flag. -/
def run_results (files : List (Option (List Char) × Bool)) (dry_run : Bool) :
    List FileResult :=
  files.map (fun f => process_markdown_file f.1 f.2 dry_run)

/-- The Run Summary accumulated by `main` (src/remove_emojis.py lines
157-182): `len(markdown_files)` files processed, `total_changed` files
changed, `total_emojis` emojis removed (both accumulated only when
`changed` is true, as in the loop body). -/
def run_summary (files : List (Option (List Char) × Bool)) (dry_run : Bool) :
    RunSummary :=
  let rs := run_results files dry_run
  ⟨files.length,
   (rs.filter (fun r => r.changed)).length,
   ((rs.filter (fun r => r.changed)).map (fun r => r.emoji_count)).sum⟩

/-- `main`'s return value (src/remove_emojis.py line 200):
`0 if total_changed > 0 else 1`. -/
def main_exit (files : List (Option (List Char) × Bool)) (dry_run : Bool) : Nat :=
  if 0 < (run_summary files dry_run).files_changed then 0 else 1

/-- The `__main__` block (src/remove_emojis.py lines 203-218): `--help`
or `-h` prints usage and exits 0 before `main` ever runs (so before any
scanning); otherwise the process exits with `main()`'s return value,
where `main` reads `dry_run` from the argument list. -/
def script_exit (argv : List String) (files : List (Option (List Char) × Bool)) :
    Nat :=
  if argv.contains ("--help") || argv.contains ("-h") then 0
  else main_exit files (argv.contains ("--dry-run") || argv.contains ("-n"))

/-! ### File discovery model -/

/-- The default `exclude_dirs` set (src/remove_emojis.py line 123). -/
def default_exclude_dirs : List String :=
  ["node_modules", ".git", "dist", "build", ".next", "coverage"]

/-- Splits a path's characters at every `/` (same shape as `splitLines`,
with `/` as the separator). -/
def pathSplit : List Char → List (List Char)
  | [] => [[]]
  | c :: rest =>
    if c = '/' then [] :: pathSplit rest
    else
      match pathSplit rest with
      | [] => [[c]]
      | l :: ls => (c :: l) :: ls

/-- `Path.parts` for a `/`-separated path string: the list of its
components. -/
def pathParts (p : String) : List String := (pathSplit p.data).map String.mk

instance : DecidableRel (fun a b : String => pathParts a ≤ pathParts b) :=
  fun a b => inferInstanceAs (Decidable (pathParts a ≤ pathParts b))

/-- `find_markdown_files` (src/remove_emojis.py lines 111-133), taking
as input the finite list of `.md` file paths that `root_dir.rglob('*.md')`
enumerates (the extension filtering is rglob's): a path is kept when no
excluded name occurs among its components (`excluded in md_file.parts`),
and the kept paths are returned sorted (`sorted(markdown_files)`).
Python compares `Path` objects by their tuple of components, so the sort
key is the lexicographic order on `pathParts` (component tuples), not on
the whole path string — e.g. `docs/x.md` sorts before `docs-old/x.md`
because the component `docs` precedes `docs-old`.  Modelled by a stable
insertion sort under that component-tuple order. -/
def find_markdown_files (md_files : List String) (exclude_dirs : List String) :
    List String :=
  List.insertionSort (fun a b => pathParts a ≤ pathParts b)
    (md_files.filter
      (fun p => !(exclude_dirs.any (fun d => (pathParts p).contains d))))

/-! ### Shared decomposition of the cleaner into per-line transforms -/

theorem remove_lines (T : List Char) :
    splitLines (remove_emojis_from_text T) =
      (splitLines T).map (fun L => processLine (emojiSub L)) := by
  rw [splitLines_remove T]
  have h1 : splitLines (emojiSub T) =
      (splitLines T).map (List.filter (fun c => !isEmojiChar c)) :=
    splitLines_filter _ (by decide) T
  rw [h1, List.map_map]
  rfl

/-! ### Claim theorems -/

/-- C1: `strip_emojis` is idempotent — applying `remove_emojis_from_text`
to its own output returns the output unchanged; moreover the output
contains no further emoji runs (`countMatches` of it is 0), and in every
output line the content after the indentation has no collapsible run of
two or more plain spaces. -/
theorem C1_strip_emojis_idempotent (T : List Char) :
    remove_emojis_from_text (remove_emojis_from_text T) =
      remove_emojis_from_text T ∧
    countMatches (remove_emojis_from_text T) = 0 ∧
    ∀ L ∈ splitLines (remove_emojis_from_text T),
      noDoubleSpace (L.dropWhile pyIsSpace) = true := by
  refine ⟨remove_idem T, countMatches_remove T, ?_⟩
  intro L hL
  rw [splitLines_remove] at hL
  obtain ⟨l0, hl0, rfl⟩ := List.mem_map.mp hL
  by_cases hb : (pyRstrip l0).any (fun c => !pyIsSpace c) = true
  · rw [processLine_dropWhile l0 hb]
    exact noDoubleSpace_collapseSpaces _
  · rw [processLine_blank l0 (by simpa using hb)]
    rfl

/-- Witness for C1 at the concrete text "  Hi 🎉  there \n\nx", whose
cleaned form is "  Hi there\n\nx"; the line "  Hi there" is one of its
output lines. -/
theorem C1_strip_emojis_idempotent_witness :
    remove_emojis_from_text (remove_emojis_from_text ("  Hi 🎉  there \n\nx".data)) =
      remove_emojis_from_text ("  Hi 🎉  there \n\nx".data) ∧
    countMatches (remove_emojis_from_text ("  Hi 🎉  there \n\nx".data)) = 0 ∧
    noDoubleSpace (("  Hi there".data).dropWhile pyIsSpace) = true :=
  ⟨(C1_strip_emojis_idempotent ("  Hi 🎉  there \n\nx".data)).1,
   (C1_strip_emojis_idempotent ("  Hi 🎉  there \n\nx".data)).2.1,
   (C1_strip_emojis_idempotent ("  Hi 🎉  there \n\nx".data)).2.2
     ("  Hi there".data) (by decide)⟩

/-- C2 counterexample: the claim says the indentation of a non-blank line
is preserved verbatim, character for character.  On the tab-indented line
"\ta  b" the code's `' ' * leading_spaces` replaces the tab by one plain
space: the output is " a b", whose leading whitespace differs from the
input's leading whitespace "\t". -/
theorem C2_indentation_counterexample :
    remove_emojis_from_text ['\t', 'a', ' ', ' ', 'b'] = [' ', 'a', ' ', 'b'] ∧
    (remove_emojis_from_text ['\t', 'a', ' ', ' ', 'b']).takeWhile pyIsSpace ≠
      (['\t', 'a', ' ', ' ', 'b'] : List Char).takeWhile pyIsSpace := by
  decide

/-- C2 (amended): the cleaner acts line by line, and on each non-blank
(rstripped) line the indentation is replaced by an equal number of plain
spaces — hence preserved verbatim exactly when it consists solely of
spaces — while only the remainder of the line has its runs of two or more
plain spaces collapsed. -/
theorem C2_indentation_amended (T : List Char) :
    (splitLines (remove_emojis_from_text T) =
      (splitLines T).map (fun L => processLine (emojiSub L))) ∧
    (∀ L : List Char, (pyRstrip L).any (fun c => !pyIsSpace c) = true →
      (processLine L).takeWhile pyIsSpace =
        List.replicate ((pyRstrip L).takeWhile pyIsSpace).length ' ' ∧
      (processLine L).dropWhile pyIsSpace =
        collapseSpaces ((pyRstrip L).dropWhile pyIsSpace) ∧
      (((pyRstrip L).takeWhile pyIsSpace).all (fun c => c = ' ') = true →
        (processLine L).takeWhile pyIsSpace = (pyRstrip L).takeWhile pyIsSpace)) := by
  refine ⟨remove_lines T, ?_⟩
  intro L h
  refine ⟨processLine_takeWhile L h, processLine_dropWhile L h, ?_⟩
  intro hall
  rw [processLine_takeWhile L h]
  have : (pyRstrip L).takeWhile pyIsSpace =
      List.replicate ((pyRstrip L).takeWhile pyIsSpace).length ' ' := by
    rw [List.eq_replicate_length]
    intro b hb
    have := List.all_eq_true.mp hall b hb
    simpa using this
  rw [← this]

/-- Witness for C2 (amended) on the spec's own example line "    a  b":
non-blank, all-space indentation, so the theorem applies and the cleaned
text is "    a b". -/
theorem C2_indentation_amended_witness :
    (pyRstrip ("    a  b".data)).any (fun c => !pyIsSpace c) = true ∧
    (processLine ("    a  b".data)).takeWhile pyIsSpace =
      (pyRstrip ("    a  b".data)).takeWhile pyIsSpace ∧
    remove_emojis_from_text ("    a  b".data) = ("    a b".data) :=
  ⟨by decide,
   ((C2_indentation_amended ("    a  b".data)).2 ("    a  b".data)
     (by decide)).2.2 (by decide),
   by decide⟩

/-- C3: `count_matches` counts maximal contiguous emoji runs, not code
points: the empty string yields 0, a block of n ≥ 1 adjacent emoji
characters counts as exactly one run, and on "Hello 🎉  World" it returns
1 while `strip_emojis` returns "Hello World". -/
theorem C3_count_matches_runs :
    countMatches [] = 0 ∧
    (∀ n, 0 < n → countMatches (List.replicate n '🎉') = 1) ∧
    countMatches ("Hello 🎉  World".data) = 1 ∧
    remove_emojis_from_text ("Hello 🎉  World".data) = ("Hello World".data) := by
  have hrep : ∀ m, countRunsAux true (List.replicate m '🎉') = 0 := by
    intro m
    induction m with
    | zero => rfl
    | succ k ih =>
      have he : isEmojiChar '🎉' = true := by decide
      simp [List.replicate_succ, countRunsAux, he, ih]
  refine ⟨rfl, ?_, by decide, by decide⟩
  intro n hn
  obtain ⟨k, rfl⟩ : ∃ k, n = k + 1 :=
    ⟨n - 1, by omega⟩
  have he : isEmojiChar '🎉' = true := by decide
  unfold countMatches
  simp [List.replicate_succ, countRunsAux, he, hrep k]

/-- Witness for C3: a block of three adjacent emoji characters is one
run. -/
theorem C3_count_matches_runs_witness :
    (0 : Nat) < 3 ∧ countMatches (List.replicate 3 '🎉') = 1 :=
  ⟨by decide, C3_count_matches_runs.2.1 3 (by decide)⟩

/-- C4 counterexample: the claim says every character outside matched
emoji runs and collapsed-space regions is preserved exactly.  The input
"a " has no emoji character (count 0) and no run of two or more spaces,
yet its trailing space is removed by the per-line rstrip, so a character
outside both kinds of region is deleted. -/
theorem C4_frame_counterexample :
    countMatches ['a', ' '] = 0 ∧ noDoubleSpace ['a', ' '] = true ∧
    remove_emojis_from_text ['a', ' '] = ['a'] := by
  decide

/-- C4 (amended): content is preserved outside matched emoji runs,
collapsed-space regions, stripped trailing whitespace and the one-for-one
leading-whitespace-to-space replacement: the transformation acts line by
line with lines rejoined by single newline separators, and within each
line every non-whitespace, non-emoji character is preserved exactly, in
order, with nothing else inserted among them. -/
theorem C4_frame_amended (T : List Char) :
    (splitLines (remove_emojis_from_text T) =
      (splitLines T).map (fun L => processLine (emojiSub L))) ∧
    (∀ L : List Char,
      (processLine (emojiSub L)).filter (fun c => !pyIsSpace c) =
        L.filter (fun c => !pyIsSpace c && !isEmojiChar c)) := by
  refine ⟨remove_lines T, ?_⟩
  intro L
  rw [processLine_filter_nonspace (emojiSub L)]
  unfold emojiSub
  rw [List.filter_filter]

/-- C10: the cleaning transformation never lengthens the text — it only
deletes characters (emoji runs, trailing whitespace, collapsed space
runs) or replaces leading-whitespace characters one for one. -/
theorem C10_remove_length_le (T : List Char) :
    (remove_emojis_from_text T).length ≤ T.length :=
  remove_length_le T

/-- Unfolding equation of `process_markdown_file` on a readable file. -/
theorem process_some_eq (orig : List Char) (write_ok dry_run : Bool) :
    process_markdown_file (some orig) write_ok dry_run =
      if countMatches orig = 0 then
        ⟨false, 0, WriteEffect.untouched, false⟩
      else if orig = remove_emojis_from_text orig then
        ⟨false, 0, WriteEffect.untouched, false⟩
      else if dry_run then
        ⟨true, countMatches orig, WriteEffect.untouched, false⟩
      else if write_ok then
        ⟨true, countMatches orig,
          WriteEffect.written (remove_emojis_from_text orig), false⟩
      else ⟨false, 0, WriteEffect.writeFailed, true⟩ := rfl

/-- Helper for C5 and C8: when the file contains at least one emoji run,
the cleaned text is strictly shorter than, hence different from, the
original, so the defensive `original == cleaned` branch is not taken. -/
theorem process_some_pos (content : List Char) (write_ok dry_run : Bool)
    (h : 0 < countMatches content) :
    process_markdown_file (some content) write_ok dry_run =
      if dry_run then
        ⟨true, countMatches content, WriteEffect.untouched, false⟩
      else if write_ok then
        ⟨true, countMatches content,
          WriteEffect.written (remove_emojis_from_text content), false⟩
      else ⟨false, 0, WriteEffect.writeFailed, true⟩ := by
  have hne : ¬(content = remove_emojis_from_text content) := fun he =>
    remove_ne_of_count_pos content h he.symm
  have hz : ¬(countMatches content = 0) := by omega
  rw [process_some_eq, if_neg hz, if_neg hne]

/-- C5: a dry run never touches the disk (for any readable file, any
write flag it leaves the effect `untouched`); for a file containing an
emoji run, the returned `(changed, emoji_count)` pair equals the pair a
live run returns on the same content, namely `changed = true` and
`emoji_count` = the count of the original — regardless of `dry_run`. -/
theorem C5_dry_run_non_mutation (content : List Char) (write_ok : Bool)
    (h : 0 < countMatches content) :
    (∀ (disk : Option (List Char)) (w : Bool),
      (process_markdown_file disk w true).effect = WriteEffect.untouched) ∧
    ((process_markdown_file (some content) write_ok true).changed,
      (process_markdown_file (some content) write_ok true).emoji_count) =
      ((process_markdown_file (some content) true false).changed,
        (process_markdown_file (some content) true false).emoji_count) ∧
    (process_markdown_file (some content) write_ok true).changed = true ∧
    (process_markdown_file (some content) write_ok true).emoji_count =
      countMatches content := by
  refine ⟨?_, ?_, ?_, ?_⟩
  · intro disk w
    cases disk with
    | none => rfl
    | some orig =>
      rw [process_some_eq]
      by_cases h0 : countMatches orig = 0
      · rw [if_pos h0]
      · rw [if_neg h0]
        by_cases h1 : orig = remove_emojis_from_text orig
        · rw [if_pos h1]
        · rw [if_neg h1, if_pos rfl]
  · rw [process_some_pos content write_ok true h, process_some_pos content true false h]
    rfl
  · rw [process_some_pos content write_ok true h]
    rfl
  · rw [process_some_pos content write_ok true h]
    rfl

/-- Witness for C5 on the one-emoji file "🎉" with a failing write flag:
dry run touches nothing and still reports `(true, 1)`. -/
theorem C5_dry_run_non_mutation_witness :
    0 < countMatches ['🎉'] ∧
    (process_markdown_file (some ['🎉']) false true).effect =
      WriteEffect.untouched ∧
    (process_markdown_file (some ['🎉']) false true).changed = true :=
  ⟨by decide,
   (C5_dry_run_non_mutation ['🎉'] false (by decide)).1 (some ['🎉']) false,
   (C5_dry_run_non_mutation ['🎉'] false (by decide)).2.2.1⟩

/-- Helper for C6: a positive changed-count is exactly the existence of a
changed file result. -/
theorem filter_changed_pos_iff (rs : List FileResult) :
    0 < (rs.filter (fun r => r.changed)).length ↔
      ∃ r ∈ rs, r.changed = true := by
  constructor
  · intro hp
    have hne : rs.filter (fun r => r.changed) ≠ [] := by
      intro hnil
      rw [hnil] at hp
      simp at hp
    obtain ⟨r, hr⟩ := List.exists_mem_of_ne_nil _ hne
    have hm := List.mem_filter.mp hr
    exact ⟨r, hm.1, hm.2⟩
  · rintro ⟨r, hr, hc⟩
    have : r ∈ rs.filter (fun x => x.changed) := List.mem_filter.mpr ⟨hr, hc⟩
    have hne : rs.filter (fun x => x.changed) ≠ [] :=
      List.ne_nil_of_mem this
    cases hl : (rs.filter (fun x => x.changed)).length with
    | zero => exact absurd (List.eq_nil_of_length_eq_zero hl) hne
    | succ k => omega

/-- C6: the script exits 0 when `--help`/`-h` is present (before any file
work — the result does not depend on the file list); otherwise `main`'s
exit code is 0 exactly when at least one file was changed (or would be,
under dry-run) and 1 exactly when no file needed changes. -/
theorem C6_exit_codes (argv : List String)
    (files : List (Option (List Char) × Bool)) :
    ((argv.contains ("--help") || argv.contains ("-h")) = true →
      script_exit argv files = 0) ∧
    ((argv.contains ("--help") || argv.contains ("-h")) = false →
      (script_exit argv files = 0 ↔
        ∃ r ∈ run_results files (argv.contains ("--dry-run") || argv.contains ("-n")),
          r.changed = true) ∧
      (script_exit argv files = 1 ↔
        ∀ r ∈ run_results files (argv.contains ("--dry-run") || argv.contains ("-n")),
          r.changed = false)) := by
  constructor
  · intro hh
    unfold script_exit
    rw [if_pos hh]
  · intro hh
    unfold script_exit
    rw [if_neg (by rw [hh]; decide)]
    have hmain : main_exit files (argv.contains ("--dry-run") || argv.contains ("-n")) =
        if 0 < ((run_results files (argv.contains ("--dry-run") || argv.contains ("-n"))).filter
          (fun r => r.changed)).length then 0 else 1 := rfl
    rw [hmain]
    by_cases hp : 0 < ((run_results files (argv.contains ("--dry-run") || argv.contains ("-n"))).filter
        (fun r => r.changed)).length
    · rw [if_pos hp]
      constructor
      · exact ⟨fun _ => (filter_changed_pos_iff _).mp hp, fun _ => rfl⟩
      · constructor
        · intro h1
          exact absurd h1 (by omega)
        · intro hall
          exfalso
          obtain ⟨r, hr, hc⟩ := (filter_changed_pos_iff _).mp hp
          have := hall r hr
          rw [this] at hc
          exact Bool.false_ne_true hc
    · rw [if_neg hp]
      constructor
      · constructor
        · intro h1
          exact absurd h1 (by omega)
        · intro hex
          exact absurd ((filter_changed_pos_iff _).mpr hex) hp
      · constructor
        · intro _ r hr
          by_contra hc
          rw [Bool.not_eq_false] at hc
          exact hp ((filter_changed_pos_iff _).mpr ⟨r, hr, hc⟩)
        · intro _
          rfl

/-- Witness for C6: `--help` exits 0 with no files; a dry run over one
emoji-bearing file exits 0. -/
theorem C6_exit_codes_witness :
    script_exit [("--help")] [] = 0 ∧
    script_exit [("--dry-run")] [(some ['🎉'], true)] = 0 :=
  ⟨(C6_exit_codes [("--help")] []).1 (by decide),
   (((C6_exit_codes [("--dry-run")] [(some ['🎉'], true)]).2 (by decide)).1).mpr
     (by decide)⟩

/-- C7: on every return path of `process_markdown_file` — read failure,
zero count, the defensive equal-content check, dry run, successful write,
failed write — the returned File Record has `changed = false` exactly
when `emoji_count = 0`. -/
theorem C7_changed_iff_count_zero (disk : Option (List Char))
    (write_ok dry_run : Bool) :
    ((process_markdown_file disk write_ok dry_run).changed = false ↔
      (process_markdown_file disk write_ok dry_run).emoji_count = 0) := by
  cases disk with
  | none => simp [process_markdown_file]
  | some orig =>
    rw [process_some_eq]
    by_cases h0 : countMatches orig = 0
    · rw [if_pos h0]
      simp
    · rw [if_neg h0]
      by_cases h1 : orig = remove_emojis_from_text orig
      · rw [if_pos h1]
        simp
      · rw [if_neg h1]
        by_cases hd : dry_run = true
        · rw [if_pos hd]
          simp [h0]
        · rw [if_neg hd]
          by_cases hw : write_ok = true
          · rw [if_pos hw]
            simp [h0]
          · rw [if_neg hw]
            simp

/-- C8: any per-file I/O failure is caught and reported: a read failure
yields the record `(changed = false, 0)` with an error report and no disk
effect; a failing write (on a file that needed changes) also yields
`(false, 0)` with an error report; the run still processes every
discovered file, always produces a summary over all of them, and a run in
which every file fails still ends with a summary showing 0 changed and 0
emojis removed. -/
theorem C8_error_isolation (files : List (Option (List Char) × Bool))
    (dry_run : Bool) :
    (∀ (w d : Bool), process_markdown_file none w d =
      ⟨false, 0, WriteEffect.untouched, true⟩) ∧
    (∀ content : List Char, 0 < countMatches content →
      process_markdown_file (some content) false false =
        ⟨false, 0, WriteEffect.writeFailed, true⟩) ∧
    (run_results files dry_run).length = files.length ∧
    (run_summary files dry_run).files_processed = files.length ∧
    ((∀ f ∈ files, f.1 = none) →
      (run_summary files dry_run).files_changed = 0 ∧
      (run_summary files dry_run).total_emojis = 0) := by
  refine ⟨fun w d => rfl, ?_, ?_, rfl, ?_⟩
  · intro content h
    rw [process_some_pos content false false h]
    rfl
  · unfold run_results
    exact List.length_map _ _
  · intro hall
    have hnil : (run_results files dry_run).filter (fun r => r.changed) = [] := by
      rw [List.filter_eq_nil_iff]
      intro r hr
      obtain ⟨f, hf, rfl⟩ := List.mem_map.mp hr
      rw [hall f hf]
      simp [process_markdown_file]
    have h1 : (run_summary files dry_run).files_changed =
        ((run_results files dry_run).filter (fun r => r.changed)).length := rfl
    have h2 : (run_summary files dry_run).total_emojis =
        (((run_results files dry_run).filter (fun r => r.changed)).map
          (fun r => r.emoji_count)).sum := rfl
    rw [h1, h2, hnil]
    exact ⟨rfl, rfl⟩

/-- Witness for C8: a failing read, a failing write on a one-emoji file,
and a run whose single file is unreadable, which still summarizes with 0
changed. -/
theorem C8_error_isolation_witness :
    process_markdown_file none true false =
      ⟨false, 0, WriteEffect.untouched, true⟩ ∧
    process_markdown_file (some ['🎉']) false false =
      ⟨false, 0, WriteEffect.writeFailed, true⟩ ∧
    (run_summary [(none, true)] false).files_changed = 0 :=
  ⟨(C8_error_isolation [(none, true)] false).1 true false,
   (C8_error_isolation [(none, true)] false).2.1 ['🎉'] (by decide),
   ((C8_error_isolation [(none, true)] false).2.2.2.2
     (by
       intro f hf
       rw [List.mem_singleton] at hf
       rw [hf])).1⟩

/-- Helper for C9: membership in the discovery result is exactly
membership in the input file list plus the absence of any excluded name
among the path's components. -/
theorem mem_find_markdown_files (md_files exclude_dirs : List String)
    (p : String) :
    p ∈ find_markdown_files md_files exclude_dirs ↔
      (p ∈ md_files ∧ ∀ d ∈ exclude_dirs, d ∉ pathParts p) := by
  unfold find_markdown_files
  rw [List.mem_insertionSort, List.mem_filter]
  constructor
  · rintro ⟨h1, h2⟩
    refine ⟨h1, ?_⟩
    intro d hd hmem
    rw [Bool.not_eq_true', List.any_eq_false] at h2
    have h3 := h2 d hd
    simp at h3
    exact h3 hmem
  · rintro ⟨h1, h2⟩
    refine ⟨h1, ?_⟩
    rw [Bool.not_eq_true', List.any_eq_false]
    intro d hd
    simp
    exact h2 d hd

/-- C9: `discover` returns exactly the input `.md` files none of whose
path components equals an excluded name, sorted lexicographically by
path — comparing component tuples, as Python orders `Path` objects — so
the order is stable and deterministic across invocations; in particular
a file under any `node_modules` directory is never included under the
default exclusion set. -/
theorem C9_discover (md_files exclude_dirs : List String) :
    (∀ p, p ∈ find_markdown_files md_files exclude_dirs ↔
      (p ∈ md_files ∧ ∀ d ∈ exclude_dirs, d ∉ pathParts p)) ∧
    List.Sorted (fun a b => pathParts a ≤ pathParts b)
      (find_markdown_files md_files exclude_dirs) ∧
    (∀ p, ("node_modules") ∈ pathParts p →
      p ∉ find_markdown_files md_files default_exclude_dirs) := by
  refine ⟨mem_find_markdown_files md_files exclude_dirs, ?_, ?_⟩
  · haveI h1 : IsTotal String (fun a b => pathParts a ≤ pathParts b) :=
      ⟨fun a b => le_total (pathParts a) (pathParts b)⟩
    haveI h2 : IsTrans String (fun a b => pathParts a ≤ pathParts b) :=
      ⟨fun a b c hab hbc => le_trans hab hbc⟩
    exact List.sorted_insertionSort _ _
  · intro p hp hmem
    have h1 := (mem_find_markdown_files md_files default_exclude_dirs p).mp hmem
    have h2 := h1.2 ("node_modules") (by simp [default_exclude_dirs])
    exact h2 hp

/-- Witness for C9: a file under node_modules is excluded from a concrete
discovery run. -/
theorem C9_discover_witness :
    ("docs/node_modules/x.md") ∉
      find_markdown_files [("docs/node_modules/x.md"), ("README.md")]
        default_exclude_dirs :=
  (C9_discover [("docs/node_modules/x.md"), ("README.md")] []).2.2
    ("docs/node_modules/x.md") (by decide)

end BiteTrack
